import Mathlib

/-!
Verification of the suggestion-lifecycle engine of an inline AI text-completion
editor.  The embedding models, over `List Char` strings:

* the context extractor `buildSmartContext` (RichTextEditor.tsx),
* the synchronous phases of the scheduler `triggerCompletionRequest`
  (RichTextEditor.tsx) — the pre-request gate and the response handler,
* the response normalizer `cleanCompletionText` (useAICompletion.ts),
* the completion hook `requestCompletion` / `cancelCompletion`
  (useAICompletion.ts), with the backend outcome supplied as a parameter and
  the externally visible effects recorded as an event trace,
* the ghost-text overlay `acceptGhostText` (GhostTextExtension.ts).

JavaScript strings are modelled as `List Char`; `trim`, `trimEnd`,
`lastIndexOf`, `indexOf`, `split('\n')` and the concrete regex replacements
used by the source are modelled by the executable functions below.
-/

/-- Whitespace as recognised by JavaScript `trim` on the characters this
program manipulates (space, tab, newline, carriage return, vertical tab,
form feed, no-break space). -/
def isJsWs (c : Char) : Bool :=
  c = ' ' || c = '\t' || c = '\n' || c = '\r' || c = '\x0b' || c = '\x0c' || c = ' '

/-- JavaScript `String.prototype.trim`: drop leading and trailing whitespace. -/
def jsTrim (l : List Char) : List Char :=
  ((l.dropWhile isJsWs).reverse.dropWhile isJsWs).reverse

/-- JavaScript `String.prototype.trimEnd`: drop trailing whitespace. -/
def trimEnd (l : List Char) : List Char :=
  (l.reverse.dropWhile isJsWs).reverse

/-- JavaScript `str.replace(/^\n+/, '')`: drop leading newline characters. -/
def dropLeadingNl (l : List Char) : List Char :=
  l.dropWhile (fun c => c = '\n')

/-- JavaScript `str.split('\n')`: split on newline characters.  Always returns
at least one (possibly empty) piece, and the pieces contain no newline. -/
def splitOnNl : List Char → List (List Char)
  | [] => [[]]
  | c :: t =>
    if c = '\n' then [] :: splitOnNl t
    else
      match splitOnNl t with
      | [] => [[c]]
      | l :: ls => (c :: l) :: ls

/-- JavaScript `lines.join('\n')`. -/
def joinNl : List (List Char) → List Char
  | [] => []
  | [l] => l
  | l :: l2 :: ls => l ++ '\n' :: joinNl (l2 :: ls)

/-- JavaScript `str.lastIndexOf(c)`, as `none` for `-1`. -/
def lastIndexOfChar (c : Char) : List Char → Option Nat
  | [] => none
  | a :: t =>
    match lastIndexOfChar c t with
    | some j => some (j + 1)
    | none => if a = c then some 0 else none

/-- JavaScript `s.indexOf(pat)` for a substring pattern, as `none` for `-1`:
the least index at which `pat` occurs in `s`. -/
def indexOfSub (s pat : List Char) : Option Nat :=
  if pat.isPrefixOf s then some 0
  else
    match s with
    | [] => none
    | _ :: t => (indexOfSub t pat).map (· + 1)

/-! ## Response Normalizer (`cleanCompletionText`, useAICompletion.ts) -/

/-- One iteration of the stop-sequence loop in `cleanCompletionText`:
`const index = cleaned.indexOf(stop); if (index !== -1) cleaned = cleaned.substring(0, index);` -/
def truncOne (s pat : List Char) : List Char :=
  match indexOfSub s pat with
  | some i => s.take i
  | none => s

/-- The stop-sequence truncation step of `cleanCompletionText`: the source
iterates over `stopSequences` in order, each time truncating the current
string at the first occurrence of that entry. -/
def truncateStops (raw : List Char) (stopSequences : List (List Char)) : List Char :=
  stopSequences.foldl truncOne raw

/-- Word character for the regex `\w`. -/
def isWordChar (c : Char) : Bool :=
  c.isAlpha || c.isDigit || c = '_'

/-- Attempt to match the regex `<\|TAG\w+\|>` at the start of `s` (with `TAG`
the literal `tag`); on success return the remainder after the match.  Because
`|` is not a word character, the greedy `\w+` is exactly `takeWhile isWordChar`
followed by the literal `|>`. -/
def tagMatch (tag : List Char) (s : List Char) : Option (List Char) :=
  let opening := '<' :: '|' :: tag
  if opening.isPrefixOf s then
    let r := s.drop opening.length
    let w := r.takeWhile isWordChar
    if w.isEmpty then none
    else
      match r.drop w.length with
      | '|' :: '>' :: rest => some rest
      | _ => none
  else none

theorem tagMatch_some_length (tag s rest : List Char) :
    tagMatch tag s = some rest → rest.length < s.length := by
  unfold tagMatch
  intro h
  simp only at h
  split at h
  · rename_i hpre
    split at h
    · exact absurd h (by simp)
    · rename_i hw
      split at h
      · rename_i heq
        cases h
        have hsl : ('<' :: '|' :: tag).length ≤ s.length :=
          (List.isPrefixOf_iff_prefix.mp hpre).length_le
        have h1 : (s.drop ('<' :: '|' :: tag).length).length = s.length - ('<' :: '|' :: tag).length := by
          simp [List.length_drop]
        have h2 := congrArg List.length heq
        simp [List.length_drop] at h2
        simp only [List.length_cons] at hsl h1 ⊢
        omega
      · exact absurd h (by simp)
  · exact absurd h (by simp)

/-- JavaScript `str.replace(/<\|TAG\w+\|>/g, '')`: remove every occurrence,
scanning left to right. -/
def replaceTag (tag : List Char) : List Char → List Char
  | [] => []
  | c :: t =>
    match h : tagMatch tag (c :: t) with
    | some rest => replaceTag tag rest
    | none => c :: replaceTag tag t
termination_by l => l.length
decreasing_by
  · exact tagMatch_some_length tag (c :: t) rest h
  · simp

/-- JavaScript `str.replace(/LITERAL/g, '')` for a literal (non-empty)
pattern: remove every occurrence, scanning left to right. -/
def replaceAllSub (pat : List Char) : List Char → List Char
  | [] => []
  | c :: t =>
    if pat ≠ [] ∧ pat.isPrefixOf (c :: t) then
      replaceAllSub pat ((c :: t).drop pat.length)
    else c :: replaceAllSub pat t
termination_by l => l.length
decreasing_by
  · rename_i h
    have : pat.length ≤ (c :: t).length := (List.isPrefixOf_iff_prefix.mp h.2).length_le
    have hp : 0 < pat.length := List.length_pos.mpr h.1
    simp [List.length_drop]
    omega
  · simp

/-- Quote characters stripped by `cleaned.replace(/^["']|["']$/g, '')`. -/
def isQuoteChar (c : Char) : Bool :=
  c = '"' || c = '\''

/-- JavaScript `cleaned.replace(/^["']|["']$/g, '')`: remove one leading quote
character if present and one trailing quote character if present (each side
independently; for a single-character quote string only the one match is
removed). -/
def stripQuotes (s : List Char) : List Char :=
  let s1 :=
    match s with
    | [] => s
    | c :: t => if isQuoteChar c then t else s
  match s1.getLast? with
  | some c => if isQuoteChar c then s1.dropLast else s1
  | none => s1

/-- Protocol-marker removal: the four sequential regex replacements of
`cleanCompletionText` (`<\|fim_\w+\|>`, `<\|endoftext\|>`, `<\|im_\w+\|>`,
`<\|end\|>`), followed by the surrounding-quote strip. -/
def cleanMarkersAndQuotes (c1 : List Char) : List Char :=
  let c2 := replaceTag (String.toList "fim_") c1
  let c3 := replaceAllSub (String.toList "<|endoftext|>") c2
  let c4 := replaceTag (String.toList "im_") c3
  let c5 := replaceAllSub (String.toList "<|end|>") c4
  stripQuotes c5

/-- `cleanCompletionText` (useAICompletion.ts): truncate at stop sequences,
remove protocol markers, strip surrounding quotes, keep at most the first 3
non-blank lines, drop leading newlines and trailing whitespace. -/
def cleanCompletionText (text : List Char) (stopSequences : List (List Char)) : List Char :=
  if text = [] then []
  else
    let c5 := cleanMarkersAndQuotes (truncateStops text stopSequences)
    let lines := (splitOnNl c5).filter (fun line => !(jsTrim line).isEmpty)
    let c6 := if lines.length > 3 then joinNl (lines.take 3) else joinNl lines
    trimEnd (dropLeadingNl c6)

/-! ## Context Extractor (`buildSmartContext`, RichTextEditor.tsx) -/

/-- The `currentLine` computation of `buildSmartContext`: the text after the
last newline before the cursor (`lastIndexOf` plus `slice`), or the whole
prefix when it contains no newline. -/
def currentLineOf (beforeCursor : List Char) : List Char :=
  match lastIndexOfChar '\n' beforeCursor with
  | some i => beforeCursor.drop (i + 1)
  | none => beforeCursor

/-- `buildSmartContext(text, cursorPos)` (RichTextEditor.tsx): the dedupe key.
Take the current line (after the last newline before the cursor); if it is
non-blank return it, otherwise return the last non-blank prior line, and if
none exists return the whole prefix. -/
def buildSmartContext (text : List Char) (cursorPos : Nat) : List Char :=
  let beforeCursor := text.take cursorPos
  let currentLine := currentLineOf beforeCursor
  if 0 < (jsTrim currentLine).length then currentLine
  else
    let lines := (splitOnNl beforeCursor).filter (fun l => !(jsTrim l).isEmpty)
    if 0 < lines.length then lines.getLastD [] else beforeCursor

/-! ## Suggestion Scheduler (`triggerCompletionRequest`, RichTextEditor.tsx) -/

/-- Completion context handed to the hook: document text before and after the
cursor (`FIMContext` in types/index.ts; the source field names `prefix` and
`suffix` are Lean keywords, hence the `Text` suffix here). -/
structure FIMContext where
  prefixText : List Char
  suffixText : List Char
deriving DecidableEq

/-- Scheduler-side mutable state of RichTextEditor: the dedupe ref
`lastContextRef`, the `internalLoading` flag and the `hasCompletion` flag. -/
structure TriggerState where
  lastContext : List Char
  internalLoading : Bool
  hasCompletion : Bool
deriving DecidableEq

/-- What the debounce-timer body decides to do. -/
inductive TriggerAction where
  | noRequest
  | request (prefixText suffixText : List Char) (anchor : Nat)
deriving DecidableEq

/-- Synchronous gate of `triggerCompletionRequest` (RichTextEditor.tsx), run
when the debounce timer fires: compute the dedupe key from the prefix; if its
trimmed length is below 3 or it equals the previous key, do nothing; otherwise
record the key, enter loading and issue the request bound to the current
cursor offset. -/
def triggerCompletionPhase1 (prefixText suffixText : List Char) (anchor : Nat)
    (st : TriggerState) : TriggerState × TriggerAction :=
  let currentLineContext := buildSmartContext prefixText prefixText.length
  if (jsTrim currentLineContext).length < 3 then (st, .noRequest)
  else if currentLineContext = st.lastContext then (st, .noRequest)
  else ({ lastContext := currentLineContext, internalLoading := true, hasCompletion := false },
        .request prefixText suffixText anchor)

/-- Document plus overlay state visible to the response handler: the document
text, the ghost-text extension storage (`ghostText`, `position`), the editor
refs `currentCompletionRef` / `completionPositionRef`, and `hasCompletion`. -/
structure EditorUIState where
  doc : List Char
  ghostText : List Char
  ghostPosition : Nat
  currentCompletion : List Char
  completionPosition : Nat
  hasCompletion : Bool
deriving DecidableEq

/-- Response phase of `triggerCompletionRequest` (RichTextEditor.tsx): when the
awaited completion resolves, show it only if it is non-empty, non-blank, and
the current cursor offset still equals the offset `reqFrom` captured at request
time; otherwise leave every piece of state untouched.  (The `finally` clause
only resets the loading indicator, which is not part of this state.) -/
def onCompletionResponse (completion : List Char) (reqFrom currentFrom : Nat)
    (st : EditorUIState) : EditorUIState :=
  if completion ≠ [] ∧ jsTrim completion ≠ [] then
    if currentFrom = reqFrom then
      { st with
        currentCompletion := completion
        completionPosition := reqFrom
        ghostText := completion
        ghostPosition := reqFrom
        hasCompletion := true }
    else st
  else st

/-! ## Completion hook (`useAICompletion.ts`) -/

/-- Observable status of the hook (`CompletionStatus` in types/index.ts). -/
inductive CompletionStatus where
  | idle
  | loading
  | success
  | error
deriving DecidableEq

/-- `CompletionResult` (types/index.ts): the cleaned text, a success/error
status and an optional error message.  The wall-clock `duration` field is
external timing and is omitted. -/
structure CompletionResult where
  text : List Char
  resStatus : CompletionStatus
  errMsg : Option (List Char)
deriving DecidableEq

/-- Hook state: the `AbortController` ref (controllers are named by numeric
ids, `nextControllerId` supplying fresh ones), the status, the error message
and the last result. -/
structure HookState where
  abortController : Option Nat
  nextControllerId : Nat
  status : CompletionStatus
  error : Option (List Char)
  lastResult : Option CompletionResult
deriving DecidableEq

/-- Externally visible effects of the hook, in program order. -/
inductive HookEvent where
  | abortSignal (id : Nat)
  | setStatus (s : CompletionStatus)
  | newController (id : Nat)
  | backendCall (id : Nat)
deriving DecidableEq

/-- Outcome of the awaited backend call: a raw completion string, or a thrown
`Error` with a `name` and a `message` (an `AbortError` name signals
cancellation). -/
inductive BackendOutcome where
  | success (raw : List Char)
  | failure (name msg : List Char)
deriving DecidableEq

/-- `cancelCompletion` (useAICompletion.ts): abort the current controller if
any, clear the ref, and reset the status to idle. -/
def cancelCompletion (s : HookState) : HookState × List HookEvent :=
  match s.abortController with
  | some id =>
    ({ s with abortController := none, status := .idle },
     [.abortSignal id, .setStatus .idle])
  | none => ({ s with status := .idle }, [.setStatus .idle])

/-- `requestCompletion` (useAICompletion.ts), with the backend outcome passed
in as `outcome` (the model of the awaited `requestAICompletion` call; it is
consulted only when the backend is actually called, which the event trace
records).  Returns the new hook state, the string the promise resolves to, and
the event trace.  The function is total: no outcome makes it throw. -/
def requestCompletion (ctx : FIMContext) (stopSequences : List (List Char))
    (outcome : BackendOutcome) (s : HookState) :
    HookState × List Char × List HookEvent :=
  let (s1, ev1) := cancelCompletion s
  if (jsTrim ctx.prefixText).length < 2 then (s1, [], ev1)
  else
    let cid := s1.nextControllerId
    let s2 := { s1 with
                abortController := some cid
                nextControllerId := cid + 1
                status := .loading
                error := none }
    let ev2 := ev1 ++ [.newController cid, .setStatus .loading, .backendCall cid]
    match outcome with
    | .success raw =>
      let completion := cleanCompletionText raw stopSequences
      let result : CompletionResult := ⟨completion, .success, none⟩
      ({ s2 with lastResult := some result, status := .success },
       completion, ev2 ++ [.setStatus .success])
    | .failure name msg =>
      if name = String.toList "AbortError" then
        ({ s2 with status := .idle }, [], ev2 ++ [.setStatus .idle])
      else
        let result : CompletionResult := ⟨[], .error, some msg⟩
        ({ s2 with error := some msg, lastResult := some result, status := .error },
         [], ev2 ++ [.setStatus .error])

/-! ## Ghost Overlay (`acceptGhostText`, GhostTextExtension.ts) -/

/-- A TipTap paragraph node built from one suggestion line: an empty line
becomes an empty paragraph (`content: []`), a non-empty line a paragraph with
one text node. -/
inductive Paragraph where
  | emptyPara
  | textPara (t : List Char)
deriving DecidableEq

/-- `line ? [{ type: 'text', text: line }] : []` in `acceptGhostText`. -/
def lineToParagraph (line : List Char) : Paragraph :=
  if line.isEmpty then .emptyPara else .textPara line

/-- Content handed to `insertContentAt`: a plain string, or a block
(paragraph) per line. -/
inductive InsertedContent where
  | plainText (t : List Char)
  | blocks (ps : List Paragraph)
deriving DecidableEq

/-- Result of the accept command: either a no-op (`return false`), or an
insertion of content at a document position. -/
inductive AcceptResult where
  | noop
  | insertAt (pos : Nat) (content : InsertedContent)
deriving DecidableEq

/-- Ghost-text extension storage. -/
structure GhostStorage where
  ghostText : List Char
  position : Nat
deriving DecidableEq

/-- `acceptGhostText` (GhostTextExtension.ts): if no ghost text is stored,
fail; otherwise clear the storage and insert at the stored position — splitting
into one paragraph per line when the text is multi-line, or inserting the raw
text when single-line. -/
def acceptGhostText (st : GhostStorage) : GhostStorage × AcceptResult :=
  if st.ghostText.isEmpty then (st, .noop)
  else
    let cleared : GhostStorage := ⟨[], 0⟩
    let lines := splitOnNl st.ghostText
    if lines.length > 1 then
      (cleared, .insertAt st.position (.blocks (lines.map lineToParagraph)))
    else
      (cleared, .insertAt st.position (.plainText st.ghostText))

/-! ## Spec-side definition for the refinement claim about stop-sequence
truncation -/

/-- The truncation rule as the spec words it: "Truncate `raw` at the first
occurrence of any `stopSequences` entry (policy: earliest match across all
sequences wins)" — the cut is at the lowest index in the original string at
which any stop sequence occurs.  Stated for comparison with the source's
`truncateStops`. -/
def truncateAtEarliestStop (raw : List Char) (stopSequences : List (List Char)) : List Char :=
  let idxs := stopSequences.filterMap (fun pat => indexOfSub raw pat)
  match idxs.min? with
  | some i => raw.take i
  | none => raw

/-! ## Helper lemmas: splitting and joining on newlines -/

theorem splitOnNl_ne_nil (s : List Char) : splitOnNl s ≠ [] := by
  induction s with
  | nil => simp [splitOnNl]
  | cons c t ih =>
    simp only [splitOnNl]
    split
    · simp
    · cases h : splitOnNl t <;> simp

theorem nl_not_mem_splitOnNl (s : List Char) : ∀ l ∈ splitOnNl s, '\n' ∉ l := by
  induction s with
  | nil =>
    intro l hl
    simp only [splitOnNl, List.mem_singleton] at hl
    simp [hl]
  | cons c t ih =>
    intro l hl
    by_cases hc : c = '\n'
    · subst hc
      simp only [splitOnNl, if_pos rfl] at hl
      rcases List.mem_cons.mp hl with h | h
      · simp [h]
      · exact ih l h
    · cases hsp : splitOnNl t with
      | nil => exact absurd hsp (splitOnNl_ne_nil t)
      | cons l0 ls =>
        simp only [splitOnNl, if_neg hc, hsp] at hl
        rcases List.mem_cons.mp hl with h1 | h1
        · subst h1
          intro hmem
          rcases List.mem_cons.mp hmem with h2 | h2
          · exact hc h2.symm
          · exact ih l0 (by rw [hsp]; exact List.mem_cons_self l0 ls) h2
        · exact ih l (by rw [hsp]; exact List.mem_cons_of_mem l0 h1)

theorem splitOnNl_no_nl (a : List Char) (h : '\n' ∉ a) : splitOnNl a = [a] := by
  induction a with
  | nil => rfl
  | cons c t ih =>
    have hc : ¬ c = '\n' := fun hh => h (by rw [hh]; exact List.mem_cons_self '\n' t)
    have ht : '\n' ∉ t := fun hm => h (List.mem_cons_of_mem c hm)
    simp only [splitOnNl, if_neg hc, ih ht]

theorem splitOnNl_append_nl (a r : List Char) (h : '\n' ∉ a) :
    splitOnNl (a ++ '\n' :: r) = a :: splitOnNl r := by
  induction a with
  | nil => simp [splitOnNl]
  | cons c t ih =>
    have hc : ¬ c = '\n' := fun hh => h (by rw [hh]; exact List.mem_cons_self '\n' t)
    have ht : '\n' ∉ t := fun hm => h (List.mem_cons_of_mem c hm)
    rw [List.cons_append]
    simp only [splitOnNl, if_neg hc, ih ht]

theorem splitOnNl_joinNl (L : List (List Char)) (hnn : ∀ l ∈ L, '\n' ∉ l) (hne : L ≠ []) :
    splitOnNl (joinNl L) = L := by
  induction L with
  | nil => exact absurd rfl hne
  | cons l ls ih =>
    cases ls with
    | nil => exact splitOnNl_no_nl l (hnn l (by simp))
    | cons l2 ls2 =>
      have h1 : joinNl (l :: l2 :: ls2) = l ++ '\n' :: joinNl (l2 :: ls2) := rfl
      rw [h1, splitOnNl_append_nl l _ (hnn l (by simp)),
        ih (fun x hx => hnn x (List.mem_cons_of_mem l hx)) (by simp)]

theorem joinNl_concat (M : List (List Char)) (x : List Char) (h : M ≠ []) :
    joinNl (M ++ [x]) = joinNl M ++ '\n' :: x := by
  induction M with
  | nil => exact absurd rfl h
  | cons m ms ih =>
    cases ms with
    | nil => rfl
    | cons m2 ms2 =>
      have h1 : joinNl ((m :: m2 :: ms2) ++ [x]) = m ++ '\n' :: joinNl ((m2 :: ms2) ++ [x]) := rfl
      have h2 : joinNl (m :: m2 :: ms2) = m ++ '\n' :: joinNl (m2 :: ms2) := rfl
      rw [h1, ih (by simp), h2]
      simp

theorem one_lt_splitOnNl_length (t : List Char) :
    1 < (splitOnNl t).length ↔ '\n' ∈ t := by
  induction t with
  | nil => simp [splitOnNl]
  | cons c t ih =>
    simp only [splitOnNl]
    split
    · rename_i hc
      have := (splitOnNl_ne_nil t)
      have : 0 < (splitOnNl t).length := List.length_pos.mpr this
      simp only [List.length_cons, List.mem_cons]
      constructor
      · intro _
        exact Or.inl hc.symm
      · intro _
        omega
    · rename_i hc
      cases h : splitOnNl t with
      | nil => exact absurd h (splitOnNl_ne_nil t)
      | cons l0 ls =>
        rw [h] at ih
        simp only [List.length_cons, List.mem_cons] at ih ⊢
        constructor
        · intro hlen
          exact Or.inr (ih.mp hlen)
        · intro hmem
          rcases hmem with h1 | h1
          · exact absurd h1.symm hc
          · exact ih.mpr h1

/-! ## Helper lemmas: trimming -/

theorem dropWhile_eq_nil_iff_all (p : Char → Bool) (l : List Char) :
    l.dropWhile p = [] ↔ l.all p := by
  induction l with
  | nil => simp
  | cons c t ih =>
    by_cases hc : p c
    · simp [List.dropWhile, hc, ih]
    · simp [List.dropWhile, hc]

theorem all_dropWhile_of_all (p : Char → Bool) (l : List Char) (h : l.all p) :
    (l.dropWhile p).all p := by
  rw [(dropWhile_eq_nil_iff_all p l).mpr h]
  simp

theorem all_of_all_dropWhile (p : Char → Bool) (l : List Char)
    (h : (l.dropWhile p).all p) : l.all p := by
  induction l with
  | nil => simp
  | cons c t ih =>
    by_cases hc : p c
    · simp only [List.dropWhile, hc] at h
      simp [hc, ih h]
    · simp only [List.dropWhile, hc] at h
      simpa using h

theorem jsTrim_eq_nil_iff (l : List Char) : jsTrim l = [] ↔ l.all isJsWs := by
  unfold jsTrim
  rw [List.reverse_eq_nil_iff, dropWhile_eq_nil_iff_all, List.all_reverse]
  constructor
  · exact all_of_all_dropWhile isJsWs l
  · exact all_dropWhile_of_all isJsWs l

theorem trimEnd_eq_nil_iff (l : List Char) : trimEnd l = [] ↔ l.all isJsWs := by
  unfold trimEnd
  rw [List.reverse_eq_nil_iff, dropWhile_eq_nil_iff_all, List.all_reverse]

theorem not_all_dropWhile (p : Char → Bool) (l : List Char) (h : ¬ l.all p) :
    ¬ (l.dropWhile p).all p := by
  intro hall
  exact h (all_of_all_dropWhile p l hall)

theorem trimEnd_not_all (l : List Char) (h : ¬ l.all isJsWs) :
    ¬ (trimEnd l).all isJsWs := by
  unfold trimEnd
  rw [List.all_reverse]
  exact not_all_dropWhile isJsWs l.reverse (by rwa [List.all_reverse])

theorem mem_of_mem_trimEnd (l : List Char) (x : Char) (h : x ∈ trimEnd l) : x ∈ l := by
  unfold trimEnd at h
  rw [List.mem_reverse] at h
  have := (List.dropWhile_sublist (l := l.reverse) (p := isJsWs)).mem h
  rwa [List.mem_reverse] at this

theorem dropWhile_append_of_ne_nil (p : Char → Bool) (a b : List Char)
    (h : a.dropWhile p ≠ []) : (a ++ b).dropWhile p = a.dropWhile p ++ b := by
  induction a with
  | nil => exact absurd rfl h
  | cons c t ih =>
    by_cases hc : p c
    · rw [List.dropWhile_cons_of_pos hc] at h ⊢
      rw [List.cons_append, List.dropWhile_cons_of_pos hc]
      exact ih h
    · rw [List.cons_append, List.dropWhile_cons_of_neg hc,
        List.dropWhile_cons_of_neg hc]
      rfl

theorem trimEnd_append (a b : List Char) (h : ¬ b.all isJsWs) :
    trimEnd (a ++ b) = a ++ trimEnd b := by
  unfold trimEnd
  rw [List.reverse_append]
  rw [dropWhile_append_of_ne_nil isJsWs b.reverse a.reverse
    (by rw [Ne, dropWhile_eq_nil_iff_all, List.all_reverse]; exact h)]
  simp

/-! ## Helper lemmas: filtering and last elements -/

theorem getLast?_cons_ne_nil {α : Type} (a : α) (l : List α) (h : l ≠ []) :
    (a :: l).getLast? = l.getLast? := by
  cases l with
  | nil => exact absurd rfl h
  | cons b t => exact List.getLast?_cons_cons

/-- Characterization of the last element of a filtered list: it satisfies the
predicate and every element of the original list after it fails it. -/
theorem getLast?_filter_charac {α : Type} (q : α → Bool) (ls : List α) (x : α)
    (h : (ls.filter q).getLast? = some x) :
    ∃ pre post, ls = pre ++ x :: post ∧ q x = true ∧ ∀ l ∈ post, q l = false := by
  induction ls with
  | nil => simp at h
  | cons a t ih =>
    by_cases hq : q a
    · rw [List.filter_cons_of_pos hq] at h
      cases hft : t.filter q with
      | nil =>
        rw [hft] at h
        simp only [List.getLast?_singleton, Option.some.injEq] at h
        subst h
        refine ⟨[], t, rfl, hq, ?_⟩
        intro l hl
        by_contra hql
        have : l ∈ t.filter q := List.mem_filter.mpr ⟨hl, by simpa using hql⟩
        rw [hft] at this
        simp at this
      | cons f fs =>
        rw [getLast?_cons_ne_nil a (t.filter q) (by rw [hft]; simp)] at h
        obtain ⟨pre, post, heq, hqx, hpost⟩ := ih h
        exact ⟨a :: pre, post, by rw [heq]; rfl, hqx, hpost⟩
    · rw [List.filter_cons_of_neg hq] at h
      obtain ⟨pre, post, heq, hqx, hpost⟩ := ih h
      exact ⟨a :: pre, post, by rw [heq]; rfl, hqx, hpost⟩

theorem filter_eq_nil_iff_all_neg {α : Type} (q : α → Bool) (ls : List α) :
    ls.filter q = [] ↔ ∀ l ∈ ls, q l = false := by
  constructor
  · intro h l hl
    by_contra hql
    have : l ∈ ls.filter q := List.mem_filter.mpr ⟨hl, by simpa using hql⟩
    rw [h] at this
    simp at this
  · intro h
    induction ls with
    | nil => rfl
    | cons a t ih =>
      rw [List.filter_cons_of_neg (by simp [h a (List.mem_cons_self a t)])]
      exact ih (fun l hl => h l (List.mem_cons_of_mem a hl))

/-! ## Helper lemmas: last newline and the current line -/

theorem lastIndexOfChar_eq_none_iff (c : Char) (l : List Char) :
    lastIndexOfChar c l = none ↔ c ∉ l := by
  induction l with
  | nil => simp [lastIndexOfChar]
  | cons a t ih =>
    simp only [lastIndexOfChar]
    cases h : lastIndexOfChar c t with
    | some j =>
      simp only []
      constructor
      · intro hcontra
        exact absurd hcontra (by simp)
      · intro hmem
        have : c ∈ t := by
          by_contra hc
          rw [ih.mpr hc] at h
          simp at h
        exact absurd (List.mem_cons_of_mem a this) hmem
    | none =>
      have hct : c ∉ t := ih.mp h
      by_cases hac : a = c
      · simp only [if_pos hac]
        constructor
        · intro hcontra
          exact absurd hcontra (by simp)
        · intro hmem
          exact absurd (by rw [hac]; exact List.mem_cons_self c t) hmem
      · simp only [if_neg hac]
        constructor
        · intro _
          intro hmem
          rcases List.mem_cons.mp hmem with h1 | h1
          · exact hac h1.symm
          · exact hct h1
        · intro _
          trivial

theorem lastIndexOfChar_some_mem (c : Char) (l : List Char) (j : Nat)
    (h : lastIndexOfChar c l = some j) : c ∈ l := by
  by_contra hc
  rw [(lastIndexOfChar_eq_none_iff c l).mpr hc] at h
  simp at h

/-- The source's "current line" (the text after the last newline, via
`lastIndexOf`) is the last piece of the newline-split of the prefix. -/
theorem currentLine_eq_getLast (p : List Char) :
    currentLineOf p = ((splitOnNl p).getLast?).getD [] := by
  induction p with
  | nil => rfl
  | cons c t ih =>
    unfold currentLineOf at ih ⊢
    simp only [lastIndexOfChar]
    cases h : lastIndexOfChar '\n' t with
    | some j =>
      have hmem : '\n' ∈ t := lastIndexOfChar_some_mem '\n' t j h
      simp only [h] at ih
      simp only []
      have hdrop : (c :: t).drop (j + 1 + 1) = t.drop (j + 1) := rfl
      rw [hdrop, ih]
      by_cases hc : c = '\n'
      · simp only [splitOnNl, if_pos hc]
        rw [getLast?_cons_ne_nil [] (splitOnNl t) (splitOnNl_ne_nil t)]
      · cases hsp : splitOnNl t with
        | nil => exact absurd hsp (splitOnNl_ne_nil t)
        | cons l0 ls =>
          have hlen : 1 < (splitOnNl t).length := (one_lt_splitOnNl_length t).mpr hmem
          rw [hsp] at hlen
          have hls : ls ≠ [] := by
            intro hnil
            rw [hnil] at hlen
            simp at hlen
          simp only [splitOnNl, if_neg hc, hsp]
          rw [getLast?_cons_ne_nil (c :: l0) ls hls,
            getLast?_cons_ne_nil l0 ls hls]
    | none =>
      have hnot : '\n' ∉ t := (lastIndexOfChar_eq_none_iff '\n' t).mp h
      have hsp : splitOnNl t = [t] := splitOnNl_no_nl t hnot
      by_cases hc : c = '\n'
      · simp only [if_pos hc, splitOnNl, hsp]
        rfl
      · simp only [if_neg hc, splitOnNl, hsp]
        rfl

/-! ## Helper lemmas: substring search -/

theorem indexOfSub_sound (s pat : List Char) (i : Nat)
    (h : indexOfSub s pat = some i) :
    ∃ b, s = s.take i ++ pat ++ b ∧ (s.take i).length = i := by
  induction s generalizing i with
  | nil =>
    unfold indexOfSub at h
    split at h
    · rename_i hpre
      cases h
      have := List.isPrefixOf_iff_prefix.mp hpre
      obtain ⟨b, hb⟩ := this
      exact ⟨b, by simpa using hb.symm, rfl⟩
    · simp at h
  | cons c t ih =>
    unfold indexOfSub at h
    split at h
    · rename_i hpre
      cases h
      obtain ⟨b, hb⟩ := List.isPrefixOf_iff_prefix.mp hpre
      exact ⟨b, by simpa using hb.symm, rfl⟩
    · simp only [Option.map_eq_some'] at h
      obtain ⟨j, hj, hji⟩ := h
      subst hji
      obtain ⟨b, hb, hlen⟩ := ih j hj
      refine ⟨b, ?_, ?_⟩
      · have : (c :: t).take (j + 1) = c :: t.take j := rfl
        rw [this]
        rw [List.cons_append, List.cons_append]
        exact congrArg (c :: ·) hb
      · have : (c :: t).take (j + 1) = c :: t.take j := rfl
        rw [this]
        simp [hlen]

theorem indexOfSub_min (s pat a b : List Char) (h : s = a ++ pat ++ b) :
    ∃ i, indexOfSub s pat = some i ∧ i ≤ a.length := by
  induction a generalizing s with
  | nil =>
    have hpre : pat.isPrefixOf s := by
      rw [List.isPrefixOf_iff_prefix, h, List.nil_append]
      exact List.prefix_append pat b
    refine ⟨0, ?_, by simp⟩
    unfold indexOfSub
    rw [if_pos hpre]
  | cons c t ih =>
    by_cases hpre : pat.isPrefixOf s
    · refine ⟨0, ?_, by simp⟩
      unfold indexOfSub
      rw [if_pos hpre]
    · have hs : s = c :: (t ++ pat ++ b) := by simpa using h
      obtain ⟨j, hj, hjle⟩ := ih (t ++ pat ++ b) rfl
      refine ⟨j + 1, ?_, by simpa using Nat.succ_le_succ hjle⟩
      rw [hs]
      unfold indexOfSub
      rw [if_neg (by rw [← hs]; exact hpre)]
      simp only [hj, Option.map_some']

/-! ## Helper lemmas: shape of the joined, trimmed line list -/

theorem all_nil_isJsWs : (([] : List Char)).all isJsWs := by simp

theorem ne_nil_of_not_all_ws (l : List Char) (h : ¬ l.all isJsWs) : l ≠ [] := by
  intro hnil
  rw [hnil] at h
  exact h all_nil_isJsWs


theorem joinNl_cons_ne (h0 : List Char) (l : List (List Char)) (hl : l ≠ []) :
    joinNl (h0 :: l) = h0 ++ '\n' :: joinNl l := by
  cases l with
  | nil => exact absurd rfl hl
  | cons a t => rfl

/-- Joining non-newline, non-blank lines, then dropping leading newlines and
trailing whitespace, splits back into the same lines with only the last one
end-trimmed. -/
theorem joined_lines_shape (M : List (List Char)) (x : List Char)
    (hnn : ∀ l ∈ M ++ [x], '\n' ∉ l) (hnb : ∀ l ∈ M ++ [x], ¬ l.all isJsWs) :
    splitOnNl (trimEnd (dropLeadingNl (joinNl (M ++ [x])))) = M ++ [trimEnd x] := by
  have hx_nn : '\n' ∉ x := hnn x (by simp)
  have hx_nb : ¬ x.all isJsWs := hnb x (by simp)
  have htx_nn : '\n' ∉ trimEnd x := fun hm => hx_nn (mem_of_mem_trimEnd _ _ hm)
  have hdlnl : dropLeadingNl (joinNl (M ++ [x])) = joinNl (M ++ [x]) := by
    have hhead : ∃ c0 t0 X, joinNl (M ++ [x]) = c0 :: (t0 ++ X) ∧ (c0 :: t0) ∈ M ++ [x] := by
      cases M with
      | nil =>
        obtain ⟨c0, t0, hx⟩ : ∃ c0 t0, x = c0 :: t0 := by
          cases x with
          | nil => exact absurd rfl (ne_nil_of_not_all_ws [] hx_nb)
          | cons c0 t0 => exact ⟨c0, t0, rfl⟩
        exact ⟨c0, t0, [], by simp [joinNl, hx], by simp [hx]⟩
      | cons m ms =>
        have hm_nb : ¬ m.all isJsWs := hnb m (by simp)
        obtain ⟨c0, t0, hm⟩ : ∃ c0 t0, m = c0 :: t0 := by
          cases m with
          | nil => exact absurd rfl (ne_nil_of_not_all_ws [] hm_nb)
          | cons c0 t0 => exact ⟨c0, t0, rfl⟩
        refine ⟨c0, t0, '\n' :: joinNl (ms ++ [x]), ?_, by simp [hm]⟩
        rw [List.cons_append, joinNl_cons_ne m (ms ++ [x]) (by simp), hm]
        simp
    obtain ⟨c0, t0, X, hX, hmem⟩ := hhead
    have hc0 : ¬ c0 = '\n' := by
      intro hcc
      exact hnn (c0 :: t0) hmem (by rw [hcc]; exact List.mem_cons_self '\n' t0)
    rw [hX]
    unfold dropLeadingNl
    rw [List.dropWhile_cons_of_neg (by simpa using hc0)]
  rw [hdlnl]
  cases M with
  | nil =>
    have h1 : joinNl ([] ++ [x]) = x := rfl
    rw [h1, splitOnNl_no_nl (trimEnd x) htx_nn]
    rfl
  | cons m ms =>
    have hMne : (m :: ms : List (List Char)) ≠ [] := by simp
    rw [joinNl_concat (m :: ms) x hMne]
    have happ : joinNl (m :: ms) ++ '\n' :: x = (joinNl (m :: ms) ++ ['\n']) ++ x := by simp
    rw [happ, trimEnd_append _ _ hx_nb]
    have happ2 : (joinNl (m :: ms) ++ ['\n']) ++ trimEnd x =
        joinNl (m :: ms) ++ '\n' :: trimEnd x := by simp
    rw [happ2, ← joinNl_concat (m :: ms) (trimEnd x) hMne]
    rw [splitOnNl_joinNl]
    · intro l hl
      rcases List.mem_append.mp hl with h1 | h1
      · exact hnn l (List.mem_append.mpr (Or.inl h1))
      · rw [List.mem_singleton.mp h1]
        exact htx_nn
    · simp

theorem mem_of_getLast?_eq_some {α : Type} (l : List α) (x : α)
    (h : l.getLast? = some x) : x ∈ l := by
  induction l with
  | nil => simp at h
  | cons a t ih =>
    cases t with
    | nil =>
      simp only [List.getLast?_singleton, Option.some.injEq] at h
      simp [h]
    | cons b t2 =>
      rw [List.getLast?_cons_cons] at h
      exact List.mem_cons_of_mem a (ih h)

/-- The blank-line filter predicate of the source (`l.trim()` truthiness)
holds exactly on the non-blank lines. -/
theorem blankPred_iff (l : List Char) : (!(jsTrim l).isEmpty) = true ↔ ¬ l.all isJsWs := by
  constructor
  · intro h hall
    rw [(jsTrim_eq_nil_iff l).mpr hall] at h
    simp at h
  · intro h
    cases hemp : (jsTrim l).isEmpty
    · simp
    · exact absurd ((jsTrim_eq_nil_iff l).mp (List.isEmpty_iff.mp hemp)) h

theorem getLast?_append_single {α : Type} (l : List α) (a : α) :
    (l ++ [a]).getLast? = some a := by
  induction l with
  | nil => rfl
  | cons b t ih => rw [List.cons_append, getLast?_cons_ne_nil b (t ++ [a]) (by simp), ih]

theorem dropLast_append_single {α : Type} (l : List α) (a : α) :
    (l ++ [a]).dropLast = l := by
  simp

/-! ## Claim theorems -/

/-- Claim C4: whenever the dedupe key of the prefix (`buildSmartContext`) has
trimmed length strictly below 3, the debounce-timer body issues no completion
request: the scheduler state is unchanged (in particular `internalLoading`
never becomes true) and the external completion call is not invoked. -/
theorem shortKey_noRequest (prefixText suffixText : List Char) (anchor : Nat)
    (st : TriggerState)
    (h : (jsTrim (buildSmartContext prefixText prefixText.length)).length < 3) :
    triggerCompletionPhase1 prefixText suffixText anchor st = (st, .noRequest) := by
  unfold triggerCompletionPhase1
  rw [if_pos h]

theorem shortKey_noRequest_witness :
    triggerCompletionPhase1 (String.toList "hi") [] 2 ⟨[], false, false⟩ =
      (⟨[], false, false⟩, .noRequest) :=
  shortKey_noRequest (String.toList "hi") [] 2 ⟨[], false, false⟩ (by decide)

/-- Claim C1: when the backend response arrives, a result whose anchor offset
`reqFrom` no longer equals the current cursor offset is discarded silently —
document, overlay storage, refs and flags are all left unchanged — and the
cleaned suggestion is stored and shown anchored at `reqFrom` exactly when the
cursor has not moved and the cleaned text is non-empty and non-blank.  An
empty or blank cleaned suggestion is never displayed: it leaves every piece of
state unchanged even when the cursor has not moved (an empty string trims to
the empty string, so the third conjunct also covers the empty case). -/
theorem staleResponse_discarded (completion : List Char) (reqFrom currentFrom : Nat)
    (st : EditorUIState) :
    (currentFrom ≠ reqFrom → onCompletionResponse completion reqFrom currentFrom st = st) ∧
    (currentFrom = reqFrom → completion ≠ [] → jsTrim completion ≠ [] →
      onCompletionResponse completion reqFrom currentFrom st =
        { st with
          currentCompletion := completion
          completionPosition := reqFrom
          ghostText := completion
          ghostPosition := reqFrom
          hasCompletion := true }) ∧
    (jsTrim completion = [] → onCompletionResponse completion reqFrom currentFrom st = st) := by
  refine ⟨?_, ?_, ?_⟩
  · intro hne
    unfold onCompletionResponse
    by_cases hcond : completion ≠ [] ∧ jsTrim completion ≠ []
    · rw [if_pos hcond, if_neg hne]
    · rw [if_neg hcond]
  · intro heq hne htrim
    unfold onCompletionResponse
    rw [if_pos ⟨hne, htrim⟩, if_pos heq]
  · intro hblank
    unfold onCompletionResponse
    rw [if_neg (fun hcond => hcond.2 hblank)]

theorem staleResponse_discarded_witness :
    onCompletionResponse (String.toList "hi") 5 7 ⟨[], [], 0, [], 0, false⟩ =
      ⟨[], [], 0, [], 0, false⟩ :=
  (staleResponse_discarded (String.toList "hi") 5 7 ⟨[], [], 0, [], 0, false⟩).1 (by decide)

/-- Claim C7 counterexample: a string with a quote on only one side is NOT
left unchanged by the quote-stripping step — the single leading quote of
`"abc` is removed. -/
theorem stripQuotes_one_sided_changed :
    stripQuotes (String.toList "\"abc") ≠ String.toList "\"abc" := by decide

/-- Claim C7 (amended): the quote-stripping step removes one leading quote
character when present and one trailing quote character when present, each
side independently.  Quotes surrounding both ends are removed together; a
string quoted on only one side has that quote removed (it is not left
unchanged); a string with no quote on either end is unchanged. -/
theorem stripQuotes_chara :
    (∀ (m : List Char) (q1 q2 : Char), isQuoteChar q1 = true → isQuoteChar q2 = true →
      stripQuotes (q1 :: (m ++ [q2])) = m) ∧
    (∀ (m : List Char) (q c : Char), isQuoteChar q = true → isQuoteChar c = false →
      stripQuotes (q :: (m ++ [c])) = m ++ [c]) ∧
    (∀ (m : List Char) (c q : Char), isQuoteChar c = false → isQuoteChar q = true →
      stripQuotes (c :: (m ++ [q])) = c :: m) ∧
    (∀ (m : List Char) (c1 c2 : Char), isQuoteChar c1 = false → isQuoteChar c2 = false →
      stripQuotes (c1 :: (m ++ [c2])) = c1 :: (m ++ [c2])) := by
  refine ⟨?_, ?_, ?_, ?_⟩
  · intro m q1 q2 h1 h2
    unfold stripQuotes
    simp only [if_pos h1, getLast?_append_single, if_pos h2, dropLast_append_single]
  · intro m q c h1 h2
    unfold stripQuotes
    simp only [if_pos h1, getLast?_append_single, h2]
    simp
  · intro m c q h1 h2
    unfold stripQuotes
    simp only [h1, Bool.false_eq_true, if_false]
    have hg : (c :: (m ++ [q])).getLast? = some q := by
      rw [← List.cons_append]
      exact getLast?_append_single (c :: m) q
    simp only [hg, if_pos h2]
    rw [← List.cons_append, dropLast_append_single]
  · intro m c1 c2 h1 h2
    unfold stripQuotes
    simp only [h1, Bool.false_eq_true, if_false]
    have hg : (c1 :: (m ++ [c2])).getLast? = some c2 := by
      rw [← List.cons_append]
      exact getLast?_append_single (c1 :: m) c2
    simp only [hg, h2, Bool.false_eq_true, if_false]

theorem stripQuotes_chara_witness :
    stripQuotes ('"' :: (String.toList "ab" ++ ['\''])) = String.toList "ab" :=
  stripQuotes_chara.1 (String.toList "ab") '"' '\'' (by decide) (by decide)

/-- Claim C5 counterexample: the stop-sequence truncation does not implement
"earliest match across all sequences wins".  On raw `aba` with stop sequences
`ba` then `ab`, the loop first cuts at `ba` (index 1) leaving `a`, in which
`ab` no longer occurs, so the result is `a`; the earliest occurrence of any
stop sequence is `ab` at index 0, which demands the empty result. -/
theorem truncateStops_not_earliest :
    truncateStops (String.toList "aba") [String.toList "ba", String.toList "ab"] ≠
      truncateAtEarliestStop (String.toList "aba") [String.toList "ba", String.toList "ab"] := by
  decide

/-- Claim C5 (amended): the truncation step processes the stop sequences in
list order, each time cutting the current text at the first occurrence of that
sequence in the already-truncated text.  For a single stop sequence this is
exactly the text strictly before its earliest occurrence — the cut point is no
later than any occurrence, so occurrences at later positions never affect the
result.  (With several sequences, a cut by an earlier-listed sequence can
destroy an earlier occurrence of a later-listed one, violating the global
earliest-match rule, as the counterexample shows.) -/
theorem truncateStops_single_earliest (raw pat a b : List Char)
    (h : raw = a ++ pat ++ b) :
    ∃ a2 b2, truncateStops raw [pat] = a2 ∧ raw = a2 ++ pat ++ b2 ∧
      a2.length ≤ a.length := by
  obtain ⟨i, hi, hile⟩ := indexOfSub_min raw pat a b h
  obtain ⟨b2, hb2, hlen⟩ := indexOfSub_sound raw pat i hi
  refine ⟨raw.take i, b2, ?_, hb2, ?_⟩
  · unfold truncateStops
    simp only [List.foldl_cons, List.foldl_nil]
    unfold truncOne
    rw [hi]
  · rw [hlen]
    exact hile

theorem truncateStops_single_earliest_witness :
    ∃ a2 b2, truncateStops (String.toList "xay") [String.toList "a"] = a2 ∧
      String.toList "xay" = a2 ++ String.toList "a" ++ b2 ∧
      a2.length ≤ (String.toList "x").length :=
  truncateStops_single_earliest (String.toList "xay") (String.toList "a")
    (String.toList "x") (String.toList "y") (by decide)

/-- Claim C2: every invocation of `requestCompletion` first aborts the
previously outstanding request's AbortController — the abort signal is the
very first externally visible effect — and only afterwards may it create a
controller and issue the backend call, always under a fresh id distinct from
the aborted one, so the superseded completion is cancelled before the next
starts and two completions never run concurrently.  (The hypothesis
`p < s.nextControllerId` is the freshness invariant of the id supply.) -/
theorem requestCompletion_aborts_previous_first (ctx : FIMContext)
    (stopSequences : List (List Char)) (outcome : BackendOutcome) (s : HookState)
    (p : Nat) (hp : s.abortController = some p) (hfresh : p < s.nextControllerId) :
    (requestCompletion ctx stopSequences outcome s).2.2.head? = some (.abortSignal p) ∧
    (∀ id, HookEvent.backendCall id ∈ (requestCompletion ctx stopSequences outcome s).2.2 →
      id ≠ p) ∧
    (∀ id, HookEvent.newController id ∈ (requestCompletion ctx stopSequences outcome s).2.2 →
      id ≠ p) := by
  obtain ⟨ac, nid, stt, err, lr⟩ := s
  simp only at hp hfresh
  subst hp
  by_cases hlen : (jsTrim ctx.prefixText).length < 2
  · simp only [requestCompletion, cancelCompletion, if_pos hlen]
    refine ⟨rfl, ?_, ?_⟩ <;> intro id hmem <;> simp at hmem
  · cases outcome with
    | success raw =>
      simp only [requestCompletion, cancelCompletion, if_neg hlen]
      refine ⟨rfl, ?_, ?_⟩ <;> intro id hmem <;> simp at hmem <;> omega
    | failure name msg =>
      by_cases hname : name = String.toList "AbortError"
      · simp only [requestCompletion, cancelCompletion, if_neg hlen, if_pos hname]
        refine ⟨rfl, ?_, ?_⟩ <;> intro id hmem <;> simp at hmem <;> omega
      · simp only [requestCompletion, cancelCompletion, if_neg hlen, if_neg hname]
        refine ⟨rfl, ?_, ?_⟩ <;> intro id hmem <;> simp at hmem <;> omega

theorem requestCompletion_aborts_previous_first_witness :
    (requestCompletion ⟨String.toList "ab", []⟩ [] (.failure (String.toList "X") [])
      ⟨some 0, 1, .idle, none, none⟩).2.2.head? = some (.abortSignal 0) :=
  (requestCompletion_aborts_previous_first ⟨String.toList "ab", []⟩ [] (.failure (String.toList "X") [])
    ⟨some 0, 1, .idle, none, none⟩ 0 rfl (by decide)).1

/-- Claim C10: for a context whose raw prefix has trimmed length below 2,
`requestCompletion` returns the empty string immediately: its only effects are
aborting any outstanding controller and resetting the status to idle — no
backend call is made, no new controller is created, and the loading state is
never entered (error, last result and the id supply are untouched). -/
theorem requestCompletion_shortInput (ctx : FIMContext)
    (stopSequences : List (List Char)) (outcome : BackendOutcome) (s : HookState)
    (h : (jsTrim ctx.prefixText).length < 2) :
    (requestCompletion ctx stopSequences outcome s).1 =
      { s with abortController := none, status := .idle } ∧
    (requestCompletion ctx stopSequences outcome s).2.1 = [] ∧
    (∀ id, HookEvent.backendCall id ∉ (requestCompletion ctx stopSequences outcome s).2.2) ∧
    (∀ id, HookEvent.newController id ∉ (requestCompletion ctx stopSequences outcome s).2.2) ∧
    HookEvent.setStatus .loading ∉ (requestCompletion ctx stopSequences outcome s).2.2 := by
  obtain ⟨ac, nid, stt, err, lr⟩ := s
  cases ac with
  | none => simp [requestCompletion, cancelCompletion, h]
  | some p => simp [requestCompletion, cancelCompletion, h]

theorem requestCompletion_shortInput_witness :
    (requestCompletion ⟨String.toList "a", []⟩ [] (.success [])
      ⟨some 4, 5, .loading, none, none⟩).1 =
      { abortController := none, nextControllerId := 5, status := .idle,
        error := none, lastResult := none } :=
  (requestCompletion_shortInput ⟨String.toList "a", []⟩ [] (.success [])
    ⟨some 4, 5, .loading, none, none⟩ (by decide)).1

/-- Claim C9: `requestCompletion` never rejects — it is a total function on
the modelled outcomes.  When the backend call actually happens (prefix long
enough) and throws, the promise resolves to the empty string: a non-abort
failure is recorded in the side channel (status `error`, the error message,
and an error `lastResult`), while an `AbortError` resets the status to idle
with no error recorded. -/
theorem requestCompletion_failure_resolves (ctx : FIMContext)
    (stopSequences : List (List Char)) (s : HookState) (name msg : List Char)
    (h : ¬ (jsTrim ctx.prefixText).length < 2) :
    (requestCompletion ctx stopSequences (.failure name msg) s).2.1 = [] ∧
    (name ≠ String.toList "AbortError" →
      (requestCompletion ctx stopSequences (.failure name msg) s).1.status = .error ∧
      (requestCompletion ctx stopSequences (.failure name msg) s).1.error = some msg ∧
      (requestCompletion ctx stopSequences (.failure name msg) s).1.lastResult =
        some ⟨[], .error, some msg⟩) ∧
    (name = String.toList "AbortError" →
      (requestCompletion ctx stopSequences (.failure name msg) s).1.status = .idle ∧
      (requestCompletion ctx stopSequences (.failure name msg) s).1.error = none) := by
  obtain ⟨ac, nid, stt, err, lr⟩ := s
  have habort : String.toList "AbortError" = ['A', 'b', 'o', 'r', 't', 'E', 'r', 'r', 'o', 'r'] := rfl
  by_cases hname : name = String.toList "AbortError"
  · rw [habort] at hname
    cases ac <;> simp [requestCompletion, cancelCompletion, h, hname]
  · rw [habort] at hname
    cases ac <;> simp [requestCompletion, cancelCompletion, h, hname]

theorem requestCompletion_failure_resolves_witness :
    (requestCompletion ⟨String.toList "ab", []⟩ [] (.failure (String.toList "TypeError") (String.toList "net"))
      ⟨none, 0, .idle, none, none⟩).2.1 = [] :=
  (requestCompletion_failure_resolves ⟨String.toList "ab", []⟩ []
    ⟨none, 0, .idle, none, none⟩ (String.toList "TypeError") (String.toList "net") (by decide)).1

/-- Claim C8: from a showing overlay (non-empty stored ghost text), accept
clears the storage (overlay becomes empty: text `[]`, position `0`) and
inserts at the stored anchor — the raw text as plain content when single-line,
and one paragraph block per line when the text contains a newline, where an
empty line yields an empty block (one block per line, none omitted). -/
theorem acceptGhostText_spec (st : GhostStorage) (h : st.ghostText ≠ []) :
    (acceptGhostText st).1 = ⟨[], 0⟩ ∧
    ('\n' ∉ st.ghostText →
      (acceptGhostText st).2 = .insertAt st.position (.plainText st.ghostText)) ∧
    ('\n' ∈ st.ghostText →
      (acceptGhostText st).2 =
        .insertAt st.position (.blocks ((splitOnNl st.ghostText).map lineToParagraph)) ∧
      ((splitOnNl st.ghostText).map lineToParagraph).length = (splitOnNl st.ghostText).length ∧
      ∀ l ∈ splitOnNl st.ghostText, l = [] → lineToParagraph l = .emptyPara) := by
  obtain ⟨g, pos⟩ := st
  simp only at h
  have hempty : g.isEmpty = false := by
    cases g with
    | nil => exact absurd rfl h
    | cons a t => rfl
  unfold acceptGhostText
  simp only [hempty, Bool.false_eq_true, if_false]
  refine ⟨by split <;> rfl, ?_, ?_⟩
  · intro hnl
    have hone : ¬ (splitOnNl g).length > 1 :=
      fun hh => hnl ((one_lt_splitOnNl_length g).mp hh)
    rw [if_neg hone]
  · intro hnl
    have hone : (splitOnNl g).length > 1 := (one_lt_splitOnNl_length g).mpr hnl
    rw [if_pos hone]
    refine ⟨rfl, by simp, ?_⟩
    intro l _ hl
    simp [lineToParagraph, hl]

theorem acceptGhostText_spec_witness :
    (acceptGhostText ⟨String.toList "ab", 3⟩).1 = ⟨[], 0⟩ :=
  (acceptGhostText_spec ⟨String.toList "ab", 3⟩ (by decide)).1

/-- Claim C3: for every prefix `p`, the dedupe key `buildSmartContext p p.length`
is (1) the current line — the text after the last line break — whenever that
line contains a non-whitespace character; (2) when the current line is blank
but some line of `p` is not, a non-blank line of `p` all of whose later lines
are blank (the nearest preceding non-blank line); and (3) `p` itself when `p`
consists entirely of blank lines (or is empty). -/
theorem buildSmartContext_dedupeKey (p : List Char) :
    (¬ (((splitOnNl p).getLast?).getD []).all isJsWs →
      buildSmartContext p p.length = ((splitOnNl p).getLast?).getD []) ∧
    ((((splitOnNl p).getLast?).getD []).all isJsWs →
      (∃ l ∈ splitOnNl p, ¬ l.all isJsWs) →
      ∃ x pre post, splitOnNl p = pre ++ x :: post ∧ ¬ x.all isJsWs ∧
        (∀ l ∈ post, l.all isJsWs) ∧ buildSmartContext p p.length = x) ∧
    ((∀ l ∈ splitOnNl p, l.all isJsWs) → buildSmartContext p p.length = p) := by
  have hbs : buildSmartContext p p.length =
      (if 0 < (jsTrim (((splitOnNl p).getLast?).getD [])).length then
        ((splitOnNl p).getLast?).getD []
      else
        if 0 < ((splitOnNl p).filter (fun l => !(jsTrim l).isEmpty)).length then
          ((splitOnNl p).filter (fun l => !(jsTrim l).isEmpty)).getLastD []
        else p) := by
    unfold buildSmartContext
    simp only [List.take_length, currentLine_eq_getLast]
  refine ⟨?_, ?_, ?_⟩
  · intro h
    have hne : jsTrim (((splitOnNl p).getLast?).getD []) ≠ [] :=
      fun hnil => h ((jsTrim_eq_nil_iff _).mp hnil)
    rw [hbs, if_pos (List.length_pos.mpr hne)]
  · intro hblank hex
    have h0 : jsTrim (((splitOnNl p).getLast?).getD []) = [] :=
      (jsTrim_eq_nil_iff _).mpr hblank
    have hnpos : ¬ 0 < (jsTrim (((splitOnNl p).getLast?).getD [])).length := by
      rw [h0]
      simp
    obtain ⟨l1, hl1mem, hl1⟩ := hex
    have hfne : (splitOnNl p).filter (fun l => !(jsTrim l).isEmpty) ≠ [] := by
      intro hnil
      have hq := (filter_eq_nil_iff_all_neg _ _).mp hnil l1 hl1mem
      rw [(blankPred_iff l1).mpr hl1] at hq
      simp at hq
    obtain ⟨x, hx⟩ : ∃ x, ((splitOnNl p).filter (fun l => !(jsTrim l).isEmpty)).getLast? = some x := by
      cases hfl : ((splitOnNl p).filter (fun l => !(jsTrim l).isEmpty)).getLast? with
      | none => exact absurd (List.getLast?_eq_none_iff.mp hfl) hfne
      | some x => exact ⟨x, rfl⟩
    obtain ⟨pre, post, hsplit, hqx, hpost⟩ := getLast?_filter_charac _ _ x hx
    refine ⟨x, pre, post, hsplit, (blankPred_iff x).mp hqx, ?_, ?_⟩
    · intro l hl
      have hq := hpost l hl
      by_contra hcon
      have hb : (!(jsTrim l).isEmpty) = true := (blankPred_iff l).mpr hcon
      simp [hb] at hq
    · rw [hbs, if_neg hnpos, if_pos (List.length_pos.mpr hfne),
        List.getLastD_eq_getLast?, hx]
      rfl
  · intro hall
    have hcur_blank : (((splitOnNl p).getLast?).getD []).all isJsWs := by
      cases hgl : (splitOnNl p).getLast? with
      | none => simp
      | some y =>
        have : y ∈ splitOnNl p := mem_of_getLast?_eq_some _ y hgl
        simpa using hall y this
    have h0 : jsTrim (((splitOnNl p).getLast?).getD []) = [] :=
      (jsTrim_eq_nil_iff _).mpr hcur_blank
    have hnpos : ¬ 0 < (jsTrim (((splitOnNl p).getLast?).getD [])).length := by
      rw [h0]
      simp
    have hfnil : (splitOnNl p).filter (fun l => !(jsTrim l).isEmpty) = [] := by
      rw [filter_eq_nil_iff_all_neg]
      intro l hl
      cases hb : (!(jsTrim l).isEmpty) with
      | false => rfl
      | true => exact absurd (hall l hl) ((blankPred_iff l).mp hb)
    rw [hbs, if_neg hnpos, hfnil]
    simp

theorem buildSmartContext_dedupeKey_witness :
    buildSmartContext (String.toList "  ") (String.toList "  ").length = String.toList "  " :=
  (buildSmartContext_dedupeKey (String.toList "  ")).2.2 (by decide)

/-- Claim C6: `cleanCompletionText` splits on newlines, drops every blank
(whitespace-only) line and keeps at most the first 3 of the remaining lines;
consequently its result is either empty or splits into at most 3 lines, none
of which is blank. -/
theorem cleanCompletionText_lines (text : List Char) (stopSequences : List (List Char)) :
    cleanCompletionText text stopSequences = [] ∨
    ((splitOnNl (cleanCompletionText text stopSequences)).length ≤ 3 ∧
     ∀ l ∈ splitOnNl (cleanCompletionText text stopSequences), ¬ l.all isJsWs) := by
  have key : ∀ L : List (List Char), (∀ l ∈ L, '\n' ∉ l) → (∀ l ∈ L, ¬ l.all isJsWs) →
      L.length ≤ 3 →
      trimEnd (dropLeadingNl (joinNl L)) = [] ∨
      ((splitOnNl (trimEnd (dropLeadingNl (joinNl L)))).length ≤ 3 ∧
       ∀ l ∈ splitOnNl (trimEnd (dropLeadingNl (joinNl L))), ¬ l.all isJsWs) := by
    intro L hnn hnb hlen
    rcases List.eq_nil_or_concat L with hnil | ⟨M, x, hMx⟩
    · left
      rw [hnil]
      rfl
    · right
      rw [List.concat_eq_append] at hMx
      subst hMx
      rw [joined_lines_shape M x hnn hnb]
      constructor
      · rw [List.length_append] at hlen ⊢
        simpa using hlen
      · intro l hl
        rcases List.mem_append.mp hl with h1 | h1
        · exact hnb l (List.mem_append.mpr (Or.inl h1))
        · rw [List.mem_singleton.mp h1]
          exact trimEnd_not_all x (hnb x (by simp))
  by_cases htext : text = []
  · left
    simp [cleanCompletionText, htext]
  · have hval : cleanCompletionText text stopSequences =
        trimEnd (dropLeadingNl
          (if ((splitOnNl (cleanMarkersAndQuotes (truncateStops text stopSequences))).filter
                (fun line => !(jsTrim line).isEmpty)).length > 3 then
            joinNl (((splitOnNl (cleanMarkersAndQuotes (truncateStops text stopSequences))).filter
                (fun line => !(jsTrim line).isEmpty)).take 3)
          else
            joinNl ((splitOnNl (cleanMarkersAndQuotes (truncateStops text stopSequences))).filter
                (fun line => !(jsTrim line).isEmpty)))) := by
      simp only [cleanCompletionText, if_neg htext]
    rw [hval]
    set lines := (splitOnNl (cleanMarkersAndQuotes (truncateStops text stopSequences))).filter
        (fun line => !(jsTrim line).isEmpty) with hlines
    have hmem_nn : ∀ l ∈ lines, '\n' ∉ l := by
      intro l hl
      rw [hlines] at hl
      exact nl_not_mem_splitOnNl _ l (List.mem_of_mem_filter hl)
    have hmem_nb : ∀ l ∈ lines, ¬ l.all isJsWs := by
      intro l hl
      rw [hlines] at hl
      exact (blankPred_iff l).mp (List.mem_filter.mp hl).2
    by_cases hgt : lines.length > 3
    · rw [if_pos hgt]
      exact key (lines.take 3)
        (fun l hl => hmem_nn l (List.take_subset 3 lines hl))
        (fun l hl => hmem_nb l (List.take_subset 3 lines hl))
        (by rw [List.length_take]; exact min_le_left 3 _)
    · rw [if_neg hgt]
      exact key lines hmem_nn hmem_nb (by omega)
